import Mathlib

/-!
# Verification of the MoMentor core engines

A shallow embedding, in Lean 4, of the MoMentor repository's two core
subsystems:

* the momentum scoring and allocation engine
  (`backend/app/algo/strategy.py`), and
* the rebalancing move planner
  (`backend/app/services/rebalancing.py`).

Python `Decimal` values and prices are modelled as exact rationals (`ℚ`);
share counts as integers (`ℤ`, with non-negativity stated as hypotheses
where the data model requires it, since the source does not enforce it by
type); Python dicts as association lists with insertion-order iteration and
last-write-wins updates, exactly like CPython dicts.  Fallible operations
(network fetches) are modelled by `Option` inputs.  All definitions follow
the Python source line by line; the one exception, clearly named
`specSwapPlan` (with its `specMatchedMoves` / `specPureSells` /
`specPureBuys` phases), follows the specification's description of the swap
matching algorithm and is proved equal to the code's version.
-/

namespace MoMentor

/-! ## Python primitives -/

/-- Python `int(d)` on a `Decimal`: truncation toward zero. -/
def truncInt (q : ℚ) : ℤ := if 0 ≤ q then ⌊q⌋ else ⌈q⌉

/-- Python `d.quantize(Decimal("0.0001"), rounding=ROUND_DOWN)`:
round to 4 decimal places toward zero. -/
def quantizeDown4 (q : ℚ) : ℚ := (truncInt (q * 10000) : ℚ) / 10000

/-- Lookup in a Python dict modelled as an association list
(`d.get(k)` / `d[k]`): the value of the first entry with the given key
(keys are unique in a built dict). -/
def dictGet? {β : Type} (m : List (String × β)) (k : String) : Option β :=
  (m.find? (fun kv => kv.1 = k)).map (fun kv => kv.2)

/-- Python `d.get(k, default)`. -/
def dictGetD {β : Type} (m : List (String × β)) (k : String) (v₀ : β) : β :=
  (dictGet? m k).getD v₀

/-- Python `d[k] = v`: replace in place if the key is present
(keeping its position), else append at the end. -/
def dictInsert {β : Type} (m : List (String × β)) (k : String) (v : β) :
    List (String × β) :=
  match m with
  | [] => [(k, v)]
  | kv :: rest =>
    if kv.1 = k then (k, v) :: rest else kv :: dictInsert rest k v

/-- Build a Python dict from a sequence of key-value pairs (dict
comprehension / repeated assignment): first-occurrence key order,
last-written value wins. -/
def dictBuild {β : Type} (l : List (String × β)) : List (String × β) :=
  l.foldl (fun m kv => dictInsert m kv.1 kv.2) []

/-- Python `sorted(_, key=key, reverse=True)` restricted to rational keys:
a stable descending sort.  An element is inserted *after* every
already-placed element whose key is not strictly smaller, so elements with
equal keys keep their original relative order, exactly as CPython's stable
sort with `reverse=True` does. -/
def insertDescBy {α : Type} (key : α → ℚ) (x : α) : List α → List α
  | [] => [x]
  | b :: l => if key b < key x then x :: b :: l else b :: insertDescBy key x l

/-- Stable descending sort by a rational key (left fold of stable
insertions; extensionally equal to CPython's Timsort with `reverse=True`
because both are stable). -/
def sortDescBy {α : Type} (key : α → ℚ) (l : List α) : List α :=
  l.foldl (fun acc x => insertDescBy key x acc) []

/-- `xs.iloc[-n:]` on a pandas series: the last `n` entries (the whole
list when it is shorter than `n`). -/
def lastN {α : Type} (n : ℕ) (l : List α) : List α := l.drop (l.length - n)

/-- Arithmetic mean of a list of rationals (pandas `.mean()` on a clean,
non-empty series). -/
def mean (l : List ℚ) : ℚ := l.sum / (l.length : ℚ)

/-! ## `backend/app/algo/strategy.py` -/

/-- Stock allocation recommendation (`strategy.py`, `Allocation`). -/
structure Allocation where
  symbol : String
  percentage : ℚ
  deriving DecidableEq, Repr

/-- `MomentumVolaStrategy.ETF_SYMBOL`. -/
def ETF_SYMBOL : String := "IE00B5BMR087"

/-- `MomentumVolaStrategy.ETF_ALLOCATION = Decimal("0.30")`. -/
def ETF_ALLOCATION : ℚ := 30 / 100

/-- The per-stock loop of `MomentumVolaStrategy.get_allocations`
(strategy.py lines 386-394): every ticker except the last receives
`per_stock` floor-quantized to 4 decimals, accumulated into `allocated`;
the last ticker receives the exact remainder
`1 - ETF_ALLOCATION - allocated`. -/
def stockAllocLoop (per_stock : ℚ) : List String → ℚ → List Allocation
  | [], _ => []
  | [t], allocated => [⟨t, 1 - ETF_ALLOCATION - allocated⟩]
  | t :: rest, allocated =>
    ⟨t, quantizeDown4 per_stock⟩ ::
      stockAllocLoop per_stock rest (allocated + quantizeDown4 per_stock)

/-- Step 7 of `MomentumVolaStrategy.get_allocations` (strategy.py lines
367-399): the anchor ETF allocation at `ETF_ALLOCATION`, followed — when
at least one ticker was selected — by the per-stock allocations splitting
`1 - ETF_ALLOCATION` under the quantize/remainder rule. -/
def get_allocations_step7 (top_tickers : List String) : List Allocation :=
  ⟨ETF_SYMBOL, ETF_ALLOCATION⟩ ::
    (if 0 < top_tickers.length then
      stockAllocLoop ((1 - ETF_ALLOCATION) / (top_tickers.length : ℚ))
        top_tickers 0
    else [])

/-- Step 6 of `MomentumVolaStrategy.get_allocations` (strategy.py line
359): `sorted(scores, key=scores.get, reverse=True)` — rank the tickers of
the score dict (an insertion-ordered association list) descending by
score with Python's stable sort. -/
def rankTickers (scores : List (String × ℚ)) : List String :=
  (sortDescBy (fun kv => kv.2) scores).map (fun kv => kv.1)

/-- Steps 5-7 of `MomentumVolaStrategy.get_allocations` (strategy.py lines
355-399), starting from the per-ticker score dict: an empty score dict
raises `ValueError("Unable to calculate MomentumVola scores for any
stocks")` (line 356); otherwise the ranked ticker list is cut to the top 4
and handed to step 7. -/
def getAllocationsFromScores (scores : List (String × ℚ)) :
    Except String (List Allocation) :=
  if scores = [] then
    Except.error "Unable to calculate MomentumVola scores for any stocks"
  else
    Except.ok (get_allocations_step7 ((rankTickers scores).take 4))

/-- One row of a (cleaned, all-numeric) OHLC price series. -/
structure Row where
  high : ℚ
  low : ℚ
  close : ℚ
  deriving DecidableEq, Repr

/-- True ranges of the rows after the first, given the previous close. -/
def trueRangesFrom (prevClose : ℚ) : List Row → List ℚ
  | [] => []
  | r :: rs =>
    max (r.high - r.low) (max |r.high - prevClose| |r.low - prevClose|) ::
      trueRangesFrom r.close rs

/-- The true-range column of `calculate_wilder_atr` (strategy.py lines
196-200): per row, `max(high - low, |high - prev_close|,
|low - prev_close|)`; on the first row the two previous-close terms are
NaN and pandas' row-wise `max` skips them, leaving `high - low`. -/
def trueRanges : List Row → List ℚ
  | [] => []
  | r0 :: rest => (r0.high - r0.low) :: trueRangesFrom r0.close rest

/-- The smoothing recursion after the first value. -/
def ewmMeanFrom (alpha : ℚ) (prev : ℚ) : List ℚ → List ℚ
  | [] => []
  | x :: rest =>
    ((1 - alpha) * prev + alpha * x) ::
      ewmMeanFrom alpha ((1 - alpha) * prev + alpha * x) rest

/-- `ewm(alpha=alpha, adjust=False).mean()` (strategy.py line 201):
recursive exponential smoothing over the whole series,
`y₀ = x₀`, `yₜ = (1 - alpha) * yₜ₋₁ + alpha * xₜ`. -/
def ewmMean (alpha : ℚ) : List ℚ → List ℚ
  | [] => []
  | x :: rest => x :: ewmMeanFrom alpha x rest

/-- `calculate_wilder_atr` (strategy.py lines 183-203), reduced to the
`atr` column it adds: Wilder smoothing with `alpha = 1/period` applied to
the true-range column of the whole input series. -/
def calculate_wilder_atr (rows : List Row) (period : ℚ) : List ℚ :=
  ewmMean (1 / period) (trueRanges rows)

/-- Percentage changes after the first row, given the previous close. -/
def monthlyReturnsFrom (prevClose : ℚ) : List Row → List ℚ
  | [] => []
  | r :: rs => (r.close / prevClose - 1) :: monthlyReturnsFrom r.close rs

/-- The `monthly_return` column (strategy.py line 244,
`pct_change()`): consecutive-close relative changes.  The leading NaN of
pandas' `pct_change` is dropped here; the windows taken below never reach
it on a series long enough to be scored. -/
def monthlyReturns : List Row → List ℚ
  | [] => []
  | r0 :: rest => monthlyReturnsFrom r0.close rest

/-- Momentum (strategy.py lines 244-245): mean of the last 3 monthly
returns. -/
def momentum (data_mo : List Row) : ℚ := mean (lastN 3 (monthlyReturns data_mo))

/-- Volatility (strategy.py lines 248-250): Wilder ATR with period 8
computed over the **whole** monthly series, then the mean of the last 8
ATR values. -/
def volatility (data_mo : List Row) : ℚ :=
  mean (lastN 8 (calculate_wilder_atr data_mo 8))

/-- `calculate_momentum_vola` (strategy.py lines 206-261) from the
resampled, cleaned monthly series onward (the daily fetch, its length
guards and the resampling are I/O and are the caller's way of producing
`data_mo`; a failed fetch yields `none` before this point).  Fewer than 8
monthly observations yield `none` (line 240); a zero volatility yields
`none` (line 252; the `pd.isna` guards on the same line cannot fire on a
cleaned series under exact arithmetic); otherwise the score is
`momentum / volatility` (line 255). -/
def calculate_momentum_vola (data_mo : List Row) : Option ℚ :=
  if data_mo.length < 8 then none
  else
    if volatility data_mo = 0 then none
    else some (momentum data_mo / volatility data_mo)

/-- `check_spy_market_condition` (strategy.py lines 144-180).  The input
is the fetched, cleaned benchmark close series (`none` when the fetch
raised; the `try`/`except` returns `False` then).  Fewer than 220 valid
sessions return `false` (lines 162-164); otherwise the function compares
the latest close with the trailing 220-session simple moving average
(`rolling(window=220).mean()`, last entry) and returns `true` exactly on
a strict excess (lines 166-176). -/
def check_spy_market_condition (fetched : Option (List ℚ)) : Bool :=
  match fetched with
  | none => false
  | some closes =>
    if closes.length < 220 then false
    else
      if (lastN 220 closes).sum / 220 < closes.getLastD 0 then true else false

/-! ## `backend/app/services/rebalancing.py` -/

/-- `ActualPosition`, restricted to the fields the planner reads
(`models.py` lines 100-108): symbol, confirmed share count, stored average
price.  Shares are integers per the data model; non-negativity is a domain
invariant stated as a hypothesis where needed. -/
structure ActualPosition where
  symbol : String
  actual_shares : ℤ
  actual_avg_price_usd : ℚ
  deriving DecidableEq, Repr

/-- The `(shares, value)` record stored in the current/target holdings
dicts. -/
structure Holding where
  shares : ℤ
  value : ℚ
  deriving DecidableEq, Repr

/-- `CashflowMove` (rebalancing.py lines 11-18). -/
structure CashflowMove where
  symbol : String
  action : String
  suggested_shares : ℤ
  suggested_value_usd : ℚ
  order_index : ℕ
  deriving DecidableEq, Repr

/-- `SwapMove` (rebalancing.py lines 21-30). -/
structure SwapMove where
  from_symbol : Option String
  to_symbol : Option String
  swap_shares_from : Option ℤ
  swap_shares_to : Option ℤ
  swap_value_usd : ℚ
  order_index : ℕ
  description : String
  deriving DecidableEq, Repr

/-- The current-holdings dict built identically at rebalancing.py lines
62-69 and 166-172: per previous position, shares and a valuation at the
current price, falling back to the position's stored average price when
the symbol has no quote. -/
def buildCurrentHoldings (previous_positions : List ActualPosition)
    (current_prices : List (String × ℚ)) : List (String × Holding) :=
  dictBuild (previous_positions.map (fun pos =>
    (pos.symbol,
      ⟨pos.actual_shares,
        (pos.actual_shares : ℚ) *
          dictGetD current_prices pos.symbol pos.actual_avg_price_usd⟩)))

/-- The target-holdings dict built identically at rebalancing.py lines
72-81 and 174-183: per target allocation, `target_value = total_capital *
percentage`; a symbol without a strictly positive quote produces **no**
entry; otherwise `target_shares = int(target_value / price)` (truncation
toward zero) valued back at the quote. -/
def buildTargetHoldings (target_allocations : List Allocation)
    (current_prices : List (String × ℚ)) (total_capital : ℚ) :
    List (String × Holding) :=
  target_allocations.foldl (fun m allocation =>
    let price := dictGetD current_prices allocation.symbol 0
    if 0 < price then
      dictInsert m allocation.symbol
        ⟨truncInt (total_capital * allocation.percentage / price),
          (truncInt (total_capital * allocation.percentage / price) : ℚ) *
            price⟩
    else m) []

/-- Phase 1 of `calculate_cashflow_moves` (rebalancing.py lines 83-110),
iterating the current-holdings dict with the running `order_index`: a full
SELL (at the dict's stored value) when the symbol has no target entry, a
partial SELL of `current - target` shares valued at the current price
(defaulting to 0) when the target is smaller, no move otherwise. -/
def cashflowSellMoves (current_prices : List (String × ℚ))
    (target_holdings : List (String × Holding)) :
    List (String × Holding) → ℕ → List CashflowMove
  | [], _ => []
  | (symbol, current) :: rest, order_index =>
    match dictGet? target_holdings symbol with
    | none =>
      ⟨symbol, "SELL", current.shares, current.value, order_index⟩ ::
        cashflowSellMoves current_prices target_holdings rest (order_index + 1)
    | some target =>
      if target.shares < current.shares then
        ⟨symbol, "SELL", current.shares - target.shares,
            ((current.shares - target.shares : ℤ) : ℚ) *
              dictGetD current_prices symbol 0, order_index⟩ ::
          cashflowSellMoves current_prices target_holdings rest
            (order_index + 1)
      else
        cashflowSellMoves current_prices target_holdings rest order_index

/-- Phase 2 of `calculate_cashflow_moves` (rebalancing.py lines 112-138),
iterating the target-holdings dict: a full BUY of the target (at its
stored value) when the symbol has no current holding, a partial BUY of
`target - current` shares valued at the current price (defaulting to 0)
when the target is larger, no move otherwise. -/
def cashflowBuyMoves (current_prices : List (String × ℚ))
    (current_holdings : List (String × Holding)) :
    List (String × Holding) → ℕ → List CashflowMove
  | [], _ => []
  | (symbol, target) :: rest, order_index =>
    match dictGet? current_holdings symbol with
    | none =>
      ⟨symbol, "BUY", target.shares, target.value, order_index⟩ ::
        cashflowBuyMoves current_prices current_holdings rest (order_index + 1)
    | some current =>
      if current.shares < target.shares then
        ⟨symbol, "BUY", target.shares - current.shares,
            ((target.shares - current.shares : ℤ) : ℚ) *
              dictGetD current_prices symbol 0, order_index⟩ ::
          cashflowBuyMoves current_prices current_holdings rest
            (order_index + 1)
      else
        cashflowBuyMoves current_prices current_holdings rest order_index

/-- `RebalancingService.calculate_cashflow_moves` (rebalancing.py lines
39-140): build both holdings dicts, then all SELL moves, then all BUY
moves, with one `order_index` counter running through both phases from
1. -/
def calculate_cashflow_moves (previous_positions : List ActualPosition)
    (target_allocations : List Allocation)
    (current_prices : List (String × ℚ)) (total_capital : ℚ) :
    List CashflowMove :=
  let current_holdings := buildCurrentHoldings previous_positions current_prices
  let target_holdings :=
    buildTargetHoldings target_allocations current_prices total_capital
  let sells := cashflowSellMoves current_prices target_holdings
    current_holdings 1
  sells ++ cashflowBuyMoves current_prices current_holdings target_holdings
    (1 + sells.length)

/-- An entry of the swap planner's `excess` / `deficit` work lists:
`(symbol, share difference, value difference)` (rebalancing.py lines
186-187). -/
abbrev SwapEntry := String × ℤ × ℚ

/-- The `excess` list (rebalancing.py lines 189-196): per current holding
whose shares exceed the target's (target defaulting to zero shares), the
share difference and its valuation at the current price (defaulting to
0). -/
def excessList (current_holdings target_holdings : List (String × Holding))
    (current_prices : List (String × ℚ)) : List SwapEntry :=
  current_holdings.filterMap (fun kv =>
    let target := dictGetD target_holdings kv.1 ⟨0, 0⟩
    if target.shares < kv.2.shares then
      some (kv.1, kv.2.shares - target.shares,
        ((kv.2.shares - target.shares : ℤ) : ℚ) *
          dictGetD current_prices kv.1 0)
    else none)

/-- The `deficit` list (rebalancing.py lines 198-204): per target holding
whose shares exceed the current holding's (current defaulting to zero
shares and value), the share difference and the difference of the two
stored values. -/
def deficitList (current_holdings target_holdings : List (String × Holding)) :
    List SwapEntry :=
  target_holdings.filterMap (fun kv =>
    let current := dictGetD current_holdings kv.1 ⟨0, 0⟩
    if current.shares < kv.2.shares then
      some (kv.1, kv.2.shares - current.shares, kv.2.value - current.value)
    else none)

/-- The trailing pure-buy loop of `calculate_swap_moves` (rebalancing.py
lines 237-248): every remaining deficit entry becomes a buy-only move. -/
def swapBuyMoves : List SwapEntry → ℕ → List SwapMove
  | [], _ => []
  | (to_symbol, to_shares, to_value) :: rest, order_index =>
    ⟨none, some to_symbol, none, some to_shares, to_value, order_index,
        s!"Acheter {to_shares} {to_symbol}"⟩ ::
      swapBuyMoves rest (order_index + 1)

/-- The matching loop of `calculate_swap_moves` (rebalancing.py lines
210-248): iterate the sorted excess list; while the deficit list is
non-empty pop its head and emit a paired move carrying the full share
counts of both entries and `min` of their values; afterwards emit
sell-only moves; finally the remaining deficit becomes buy-only moves. -/
def swapMatchLoop : List SwapEntry → List SwapEntry → ℕ → List SwapMove
  | [], deficit, order_index => swapBuyMoves deficit order_index
  | (from_symbol, from_shares, from_value) :: rest, [], order_index =>
    ⟨some from_symbol, none, some from_shares, none, from_value, order_index,
        s!"Vendre {from_shares} {from_symbol}"⟩ ::
      swapMatchLoop rest [] (order_index + 1)
  | (from_symbol, from_shares, from_value) :: rest,
      (to_symbol, to_shares, to_value) :: deficit, order_index =>
    ⟨some from_symbol, some to_symbol, some from_shares, some to_shares,
        min from_value to_value, order_index,
        s!"Vendre {from_shares} {from_symbol} → Acheter {to_shares} {to_symbol}"⟩ ::
      swapMatchLoop rest deficit (order_index + 1)

/-- `RebalancingService.calculate_swap_moves` (rebalancing.py lines
142-250): build the holdings dicts exactly as the cashflow planner does,
derive the excess and deficit lists, sort both descending by their value
component with Python's stable sort (lines 207-208), and run the greedy
matching loop with `order_index` starting at 1. -/
def calculate_swap_moves (previous_positions : List ActualPosition)
    (target_allocations : List Allocation)
    (current_prices : List (String × ℚ)) (total_capital : ℚ) :
    List SwapMove :=
  let current_holdings := buildCurrentHoldings previous_positions current_prices
  let target_holdings :=
    buildTargetHoldings target_allocations current_prices total_capital
  let excess := sortDescBy (fun e => e.2.2)
    (excessList current_holdings target_holdings current_prices)
  let deficit := sortDescBy (fun e => e.2.2)
    (deficitList current_holdings target_holdings)
  swapMatchLoop excess deficit 1

/-! ## Properties of the stable descending sort -/

theorem insertDescBy_perm {α : Type} (key : α → ℚ) (x : α) (l : List α) :
    (insertDescBy key x l).Perm (x :: l) := by
  induction l with
  | nil => exact List.Perm.refl _
  | cons b l ih =>
    rw [insertDescBy]
    by_cases h : key b < key x
    · rw [if_pos h]
    · rw [if_neg h]
      exact (ih.cons b).trans (List.Perm.swap x b l)

theorem mem_insertDescBy {α : Type} (key : α → ℚ) (x y : α) (l : List α) :
    y ∈ insertDescBy key x l ↔ y = x ∨ y ∈ l := by
  rw [(insertDescBy_perm key x l).mem_iff, List.mem_cons]

theorem insertDescBy_pairwise {α : Type} (key : α → ℚ) (x : α) (l : List α)
    (h : l.Pairwise (fun a b => key b ≤ key a)) :
    (insertDescBy key x l).Pairwise (fun a b => key b ≤ key a) := by
  induction l with
  | nil => simp [insertDescBy]
  | cons b l ih =>
    rw [List.pairwise_cons] at h
    rw [insertDescBy]
    by_cases hbx : key b < key x
    · rw [if_pos hbx, List.pairwise_cons]
      refine ⟨fun y hy => ?_, List.pairwise_cons.mpr h⟩
      rcases List.mem_cons.mp hy with rfl | hy
      · exact le_of_lt hbx
      · exact (h.1 y hy).trans (le_of_lt hbx)
    · rw [if_neg hbx, List.pairwise_cons]
      refine ⟨fun y hy => ?_, ih h.2⟩
      rcases (mem_insertDescBy key x y l).mp hy with rfl | hy
      · exact le_of_not_lt hbx
      · exact h.1 y hy

theorem sortDescBy_aux_perm {α : Type} (key : α → ℚ) (l acc : List α) :
    (l.foldl (fun acc x => insertDescBy key x acc) acc).Perm (l ++ acc) := by
  induction l generalizing acc with
  | nil => simp
  | cons x l ih =>
    rw [List.foldl_cons]
    refine (ih (insertDescBy key x acc)).trans ?_
    refine ((insertDescBy_perm key x acc).append_left l).trans ?_
    exact List.perm_middle

theorem sortDescBy_perm {α : Type} (key : α → ℚ) (l : List α) :
    (sortDescBy key l).Perm l := by
  have h := sortDescBy_aux_perm key l []
  rw [List.append_nil] at h
  exact h

theorem sortDescBy_pairwise {α : Type} (key : α → ℚ) (l : List α) :
    (sortDescBy key l).Pairwise (fun a b => key b ≤ key a) := by
  suffices h : ∀ acc : List α, acc.Pairwise (fun a b => key b ≤ key a) →
      (l.foldl (fun acc x => insertDescBy key x acc) acc).Pairwise
        (fun a b => key b ≤ key a) from h [] (List.Pairwise.nil)
  induction l with
  | nil => intro acc hacc; exact hacc
  | cons x l ih =>
    intro acc hacc
    rw [List.foldl_cons]
    exact ih _ (insertDescBy_pairwise key x acc hacc)

theorem insertDescBy_filter_ne {α : Type} (key : α → ℚ) (x : α) (l : List α)
    (c : ℚ) (hx : ¬key x = c) :
    (insertDescBy key x l).filter (fun a => decide (key a = c)) =
      l.filter (fun a => decide (key a = c)) := by
  induction l with
  | nil => simp [insertDescBy, hx]
  | cons b l ih =>
    rw [insertDescBy]
    by_cases hbx : key b < key x
    · rw [if_pos hbx, List.filter_cons, List.filter_cons]
      simp [hx]
    · rw [if_neg hbx, List.filter_cons, List.filter_cons, ih]

theorem insertDescBy_filter_eq {α : Type} (key : α → ℚ) (x : α) (l : List α)
    (c : ℚ) (hx : key x = c)
    (h : l.Pairwise (fun a b => key b ≤ key a)) :
    (insertDescBy key x l).filter (fun a => decide (key a = c)) =
      l.filter (fun a => decide (key a = c)) ++ [x] := by
  induction l with
  | nil => simp [insertDescBy, hx]
  | cons b l ih =>
    rw [List.pairwise_cons] at h
    rw [insertDescBy]
    by_cases hbx : key b < key x
    · rw [if_pos hbx]
      have hb : ¬key b = c := by
        intro hc; rw [hx] at hbx; exact absurd hc (ne_of_lt hbx)
      have hl : List.filter (fun a => decide (key a = c)) l = [] := by
        refine List.filter_eq_nil_iff.mpr (fun a ha => ?_)
        simp only [decide_eq_true_eq]
        intro hc
        have h1 : key a ≤ key b := h.1 a ha
        rw [hc] at h1
        rw [hx] at hbx
        exact absurd (lt_of_lt_of_le hbx h1) (lt_irrefl _)
      simp [List.filter_cons, hl, hx, hb]
    · rw [if_neg hbx, List.filter_cons, List.filter_cons, ih h.2]
      by_cases hb : key b = c <;> simp [hb]

theorem sortDescBy_filter {α : Type} (key : α → ℚ) (l : List α) (c : ℚ) :
    (sortDescBy key l).filter (fun a => decide (key a = c)) =
      l.filter (fun a => decide (key a = c)) := by
  suffices h : ∀ acc : List α, acc.Pairwise (fun a b => key b ≤ key a) →
      (l.foldl (fun acc x => insertDescBy key x acc) acc).filter
          (fun a => decide (key a = c)) =
        acc.filter (fun a => decide (key a = c)) ++
          l.filter (fun a => decide (key a = c)) by
    have := h [] (List.Pairwise.nil)
    rw [List.filter_nil, List.nil_append] at this
    exact this
  induction l with
  | nil => intro acc hacc; simp
  | cons x l ih =>
    intro acc hacc
    rw [List.foldl_cons, ih _ (insertDescBy_pairwise key x acc hacc),
      List.filter_cons]
    by_cases hx : key x = c
    · rw [insertDescBy_filter_eq key x acc c hx hacc]
      simp [hx]
    · rw [insertDescBy_filter_ne key x acc c hx]
      simp [hx]

/-! ## Properties of the allocation builder -/

theorem stockAllocLoop_cons_cons (per_stock allocated : ℚ) (t t' : String)
    (rest : List String) :
    stockAllocLoop per_stock (t :: t' :: rest) allocated =
      ⟨t, quantizeDown4 per_stock⟩ ::
        stockAllocLoop per_stock (t' :: rest)
          (allocated + quantizeDown4 per_stock) := rfl

theorem stockAllocLoop_sum (per_stock : ℚ) (l : List String) (h : l ≠ [])
    (allocated : ℚ) :
    ((stockAllocLoop per_stock l allocated).map
      (fun a => a.percentage)).sum = 1 - ETF_ALLOCATION - allocated := by
  induction l generalizing allocated with
  | nil => exact absurd rfl h
  | cons t rest ih =>
    cases rest with
    | nil => simp [stockAllocLoop]
    | cons t' rest' =>
      rw [stockAllocLoop_cons_cons, List.map_cons, List.sum_cons,
        ih (List.cons_ne_nil t' rest')]
      ring_nf

theorem stockAllocLoop_structure (per_stock : ℚ) (l : List String)
    (h : l ≠ []) (allocated : ℚ) :
    stockAllocLoop per_stock l allocated =
      (l.dropLast.map fun t => ⟨t, quantizeDown4 per_stock⟩) ++
        [⟨l.getLast h, 1 - ETF_ALLOCATION -
          (allocated + l.dropLast.length * quantizeDown4 per_stock)⟩] := by
  induction l generalizing allocated with
  | nil => exact absurd rfl h
  | cons t rest ih =>
    cases rest with
    | nil =>
      simp only [stockAllocLoop, List.dropLast_single, List.map_nil,
        List.length_nil, List.nil_append, List.getLast_singleton]
      norm_num
    | cons t' rest' =>
      rw [stockAllocLoop_cons_cons, ih (List.cons_ne_nil t' rest')]
      have hd : (t :: t' :: rest').dropLast = t :: (t' :: rest').dropLast :=
        rfl
      have hg : (t :: t' :: rest').getLast h =
          (t' :: rest').getLast (List.cons_ne_nil t' rest') :=
        List.getLast_cons (List.cons_ne_nil t' rest')
      rw [hd, hg, List.map_cons, List.cons_append]
      congr 2
      rw [List.length_cons]
      push_cast
      ring_nf

/-! ## Claim theorems for the allocation engine -/

/-- Claim C1: every allocation set built by step 7 of
`MomentumVolaStrategy.get_allocations` from a non-empty selection of K
tickers gives the anchor ETF exactly `ETF_ALLOCATION` = 0.30, gives every
non-last selected ticker `(1 - 0.30) / K` floor-quantized to 4 decimal
places, gives the last ticker the exact remainder `1 - 0.30 - (K - 1) *
quantized share`, and the percentages of the whole set sum to exactly 1
(for every K ≥ 1; sets returned by `get_allocations` always have
1 ≤ K ≤ 4, since an empty score set aborts the run earlier). -/
theorem allocation_builder_shape_and_sum (top_tickers : List String)
    (h : top_tickers ≠ []) :
    get_allocations_step7 top_tickers =
      ⟨ETF_SYMBOL, ETF_ALLOCATION⟩ ::
        (top_tickers.dropLast.map fun t =>
          ⟨t, quantizeDown4
            ((1 - ETF_ALLOCATION) / (top_tickers.length : ℚ))⟩) ++
        [⟨top_tickers.getLast h,
          1 - ETF_ALLOCATION - top_tickers.dropLast.length *
            quantizeDown4
              ((1 - ETF_ALLOCATION) / (top_tickers.length : ℚ))⟩] ∧
    ((get_allocations_step7 top_tickers).map
      (fun a => a.percentage)).sum = 1 := by
  have hlen : 0 < top_tickers.length := List.length_pos.mpr h
  constructor
  · rw [get_allocations_step7, if_pos hlen,
      stockAllocLoop_structure _ _ h 0]
    congr 3
    ring_nf
  · rw [get_allocations_step7, if_pos hlen, List.map_cons, List.sum_cons,
      stockAllocLoop_sum _ _ h 0]
    rw [ETF_ALLOCATION]
    ring

/-- Witness for C1 at the concrete selection `["A", "B", "C"]` (K = 3):
the non-last tickers each get `⌊0.7 / 3 * 10000⌋ / 10000 = 0.2333`, the
last gets `0.2334`, and everything sums to 1. -/
theorem allocation_builder_shape_and_sum_witness :
    get_allocations_step7 ["A", "B", "C"] =
      [⟨ETF_SYMBOL, 3 / 10⟩, ⟨"A", 2333 / 10000⟩, ⟨"B", 2333 / 10000⟩,
        ⟨"C", 2334 / 10000⟩] ∧
    ((get_allocations_step7 ["A", "B", "C"]).map
      (fun a => a.percentage)).sum = 1 :=
  ⟨by
    norm_num [get_allocations_step7, stockAllocLoop, quantizeDown4,
      truncInt, ETF_ALLOCATION],
    (allocation_builder_shape_and_sum ["A", "B", "C"] (by decide)).2⟩

/-- Claim C5, counterexample: with zero scorable symbols the run does
**not** proceed — `get_allocations` raises
`ValueError("Unable to calculate MomentumVola scores for any stocks")`
(strategy.py lines 355-356) before the allocation-building step, instead
of returning the anchor-only allocation the claim asserts. -/
theorem zero_scorable_counterexample :
    getAllocationsFromScores [] =
      Except.error "Unable to calculate MomentumVola scores for any stocks" ∧
    getAllocationsFromScores [] ≠
      Except.ok [⟨ETF_SYMBOL, ETF_ALLOCATION⟩] := by
  constructor
  · rfl
  · intro hcontra
    simp [getAllocationsFromScores] at hcontra

/-- Claim C5 as amended: when zero symbols are scorable the run aborts
with the `ValueError` veto; the allocation-building step itself, handed an
empty selection, would produce exactly the anchor allocation at weight
0.30; and whenever at least one symbol is scorable the run proceeds
without error. -/
theorem zero_scorable_raises_and_anchor_only :
    getAllocationsFromScores [] =
      Except.error "Unable to calculate MomentumVola scores for any stocks" ∧
    get_allocations_step7 [] = [⟨ETF_SYMBOL, ETF_ALLOCATION⟩] ∧
    ∀ scores : List (String × ℚ), scores ≠ [] →
      getAllocationsFromScores scores =
        Except.ok (get_allocations_step7 ((rankTickers scores).take 4)) := by
  refine ⟨rfl, rfl, fun scores hne => ?_⟩
  rw [getAllocationsFromScores, if_neg hne]

/-- Claim C6: the volatility entering the score smooths the true-range
series (true range = `max(high - low, |high - prev_close|,
|low - prev_close|)`) with Wilder factor `alpha = 1/8` recursively over
the **entire** monthly series and only then averages the last 8 smoothed
values — `volatility` is by construction
`mean (lastN 8 (calculate_wilder_atr data_mo 8))` — so the result depends
on pre-window history: two series that agree on their trailing 8 rows but
differ earlier score different volatilities, and the value differs from
what restricting to the trailing 8 rows *before* smoothing would give. -/
theorem volatility_full_series_smoothing_dependence :
    lastN 8 (List.replicate 6 (⟨100, 0, 50⟩ : Row) ++
        List.replicate 8 ⟨10, 9, 19/2⟩) =
      lastN 8 (List.replicate 14 (⟨10, 9, 19/2⟩ : Row)) ∧
    volatility (List.replicate 6 ⟨100, 0, 50⟩ ++
        List.replicate 8 ⟨10, 9, 19/2⟩) ≠
      volatility (List.replicate 14 ⟨10, 9, 19/2⟩) ∧
    volatility (List.replicate 6 ⟨100, 0, 50⟩ ++
        List.replicate 8 ⟨10, 9, 19/2⟩) ≠
      mean (lastN 8 (calculate_wilder_atr
        (lastN 8 (List.replicate 6 ⟨100, 0, 50⟩ ++
          List.replicate 8 ⟨10, 9, 19/2⟩)) 8)) := by
  refine ⟨rfl, ?_, ?_⟩ <;>
    norm_num [volatility, calculate_wilder_atr, trueRanges, trueRangesFrom,
      ewmMean, ewmMeanFrom, lastN, mean, List.replicate, max_def, abs]

/-- Claim C7: the ranking step (strategy.py line 359) sorts the scored
symbols descending by score; symbols with equal scores keep exactly their
relative order in the score dict, which is the universe iteration order
(stability, stated as: for every score value, filtering the ranked list
down to that score gives back the input's sublist unchanged); the ranked
list is a permutation of the input; and the ranking is deterministic — a
second run on the same scored set produces the identical list. -/
theorem ranking_sorted_stable_deterministic (scores : List (String × ℚ)) :
    (sortDescBy (fun kv => kv.2) scores).Pairwise
      (fun a b => b.2 ≤ a.2) ∧
    (∀ c : ℚ, (sortDescBy (fun kv => kv.2) scores).filter
        (fun kv => decide (kv.2 = c)) =
      scores.filter (fun kv => decide (kv.2 = c))) ∧
    (sortDescBy (fun kv => kv.2) scores).Perm scores ∧
    rankTickers scores = rankTickers scores :=
  ⟨sortDescBy_pairwise _ scores,
    fun c => sortDescBy_filter _ scores c,
    sortDescBy_perm _ scores,
    rfl⟩

/-- Claim C8: `calculate_momentum_vola` returns an absent score (`none`,
never zero) exactly when the monthly series is shorter than 8 rows or the
computed volatility is zero (on the exact-rational embedding of a cleaned
series the `pd.isna` guards cannot fire, and a failed fetch never reaches
this point); in every other case it returns exactly
`momentum / volatility`. -/
theorem scorer_absent_iff_short_or_zero_vola (data_mo : List Row) :
    (calculate_momentum_vola data_mo = none ↔
      data_mo.length < 8 ∨ volatility data_mo = 0) ∧
    (data_mo.length < 8 ∨ volatility data_mo = 0 ∨
      calculate_momentum_vola data_mo =
        some (momentum data_mo / volatility data_mo)) := by
  rw [calculate_momentum_vola]
  by_cases h8 : data_mo.length < 8
  · simp [h8]
  · by_cases hv : volatility data_mo = 0
    · simp [h8, hv]
    · simp [h8, hv]

/-- Claim C9: the regime filter returns `true` exactly when at least 220
valid sessions are available and the latest close strictly exceeds the
trailing 220-session simple moving average; a failed fetch (`none`) or a
short series returns `false` — fail-closed, with no exception path. -/
theorem regime_filter_characterization :
    check_spy_market_condition none = false ∧
    ∀ closes : List ℚ,
      check_spy_market_condition (some closes) = true ↔
        220 ≤ closes.length ∧
          (lastN 220 closes).sum / 220 < closes.getLastD 0 := by
  refine ⟨rfl, fun closes => ?_⟩
  rw [check_spy_market_condition]
  by_cases hlen : closes.length < 220
  · rw [if_pos hlen]
    simp only [Bool.false_eq_true, false_iff]
    intro hcontra
    omega
  · rw [if_neg hlen]
    by_cases hlt : (lastN 220 closes).sum / 220 < closes.getLastD 0
    · simp [hlt]
      omega
    · rw [if_neg hlt]
      simp only [Bool.false_eq_true, false_iff, not_and]
      exact fun _ => hlt

/-! ## The specification's description of the swap matching algorithm

These three definitions follow the wording of spec §4.4 (swap plan, steps
3 and 4): pop the heads of the sorted excess and deficit lists pairwise,
emitting one move per pair with `value = min(excess_value,
deficit_value)`, until either list is exhausted; the surviving excess
suffix becomes sell-only moves and the surviving deficit suffix becomes
buy-only moves.  They are deliberately structured differently from the
implementation's single interleaved loop and are proved equal to it. -/

/-- Spec §4.4 step 3: pairwise matching of the two heads until either
list is exhausted. -/
def specMatchedMoves : List SwapEntry → List SwapEntry → ℕ → List SwapMove
  | e :: ex, d :: de, n =>
    ⟨some e.1, some d.1, some e.2.1, some d.2.1, min e.2.2 d.2.2, n,
        s!"Vendre {e.2.1} {e.1} → Acheter {d.2.1} {d.1}"⟩ ::
      specMatchedMoves ex de (n + 1)
  | _, _, _ => []

/-- Spec §4.4 step 4, sell side: each remaining excess entry becomes a
pure-sell move (`to_symbol` absent). -/
def specPureSells : List SwapEntry → ℕ → List SwapMove
  | [], _ => []
  | (sym, sh, v) :: rest, n =>
    ⟨some sym, none, some sh, none, v, n, s!"Vendre {sh} {sym}"⟩ ::
      specPureSells rest (n + 1)

/-- Spec §4.4 step 4, buy side: each remaining deficit entry becomes a
pure-buy move (`from_symbol` absent). -/
def specPureBuys : List SwapEntry → ℕ → List SwapMove
  | [], _ => []
  | (sym, sh, v) :: rest, n =>
    ⟨none, some sym, none, some sh, v, n, s!"Acheter {sh} {sym}"⟩ ::
      specPureBuys rest (n + 1)

/-- Spec §4.4 steps 3-4 assembled: matched pairs first (`min(|excess|,
|deficit|)` of them), then the unmatched excess suffix as pure sells,
then the unmatched deficit suffix as pure buys, with a dense 1-based
`order_index`. -/
def specSwapPlan (ex de : List SwapEntry) : List SwapMove :=
  specMatchedMoves ex de 1 ++
    specPureSells (ex.drop de.length) (1 + min ex.length de.length) ++
    specPureBuys (de.drop ex.length) (1 + ex.length)

/-! ## Net per-symbol share deltas (the quantities claim C2 compares) -/

/-- Net share change for one symbol implied by a cashflow plan:
BUY shares minus SELL shares over all moves for that symbol. -/
def cashflowNetShares (moves : List CashflowMove) (s : String) : ℤ :=
  (moves.map (fun m =>
    (if m.symbol = s ∧ m.action = "BUY" then m.suggested_shares else 0) -
      (if m.symbol = s ∧ m.action = "SELL" then m.suggested_shares
        else 0))).sum

/-- Net share change for one symbol implied by a swap plan:
`shares_to - shares_from` summed over all moves mentioning the symbol. -/
def swapNetShares (moves : List SwapMove) (s : String) : ℤ :=
  (moves.map (fun m =>
    (if m.to_symbol = some s then m.swap_shares_to.getD 0 else 0) -
      (if m.from_symbol = some s then m.swap_shares_from.getD 0
        else 0))).sum

/-! ## Dict lemmas -/

theorem dictGet?_nil {β : Type} (k : String) :
    dictGet? ([] : List (String × β)) k = none := rfl

theorem dictGet?_cons {β : Type} (k' : String) (v : β)
    (m : List (String × β)) (k : String) :
    dictGet? ((k', v) :: m) k = if k' = k then some v else dictGet? m k := by
  rw [dictGet?, dictGet?, List.find?]
  by_cases h : k' = k
  · simp [h]
  · simp [h]

theorem dictGet?_mem {β : Type} {m : List (String × β)} {k : String} {v : β}
    (h : dictGet? m k = some v) : (k, v) ∈ m := by
  rw [dictGet?, Option.map_eq_some'] at h
  obtain ⟨kv, hfind, hv⟩ := h
  have hmem := List.mem_of_find?_eq_some hfind
  have hk := List.find?_some hfind
  simp only [decide_eq_true_eq] at hk
  have : kv = (k, v) := by
    cases kv
    simp_all
  rw [this] at hmem
  exact hmem

theorem mem_dictInsert {β : Type} {m : List (String × β)} {k : String}
    {v : β} (kv' : String × β) (h : kv' ∈ dictInsert m k v) :
    kv' = (k, v) ∨ kv' ∈ m := by
  induction m with
  | nil => simpa [dictInsert] using h
  | cons kv rest ih =>
    rw [dictInsert] at h
    by_cases hk : kv.1 = k
    · rw [if_pos hk] at h
      rcases List.mem_cons.mp h with h1 | h1
      · exact Or.inl h1
      · exact Or.inr (List.mem_cons_of_mem kv h1)
    · rw [if_neg hk] at h
      rcases List.mem_cons.mp h with h1 | h1
      · exact Or.inr (h1 ▸ List.mem_cons_self kv rest)
      · rcases ih h1 with h2 | h2
        · exact Or.inl h2
        · exact Or.inr (List.mem_cons_of_mem kv h2)

theorem mem_keys_dictInsert {β : Type} (m : List (String × β)) (k : String)
    (v : β) (k' : String) :
    k' ∈ (dictInsert m k v).map Prod.fst ↔
      k' = k ∨ k' ∈ m.map Prod.fst := by
  induction m with
  | nil => simp [dictInsert]
  | cons kv rest ih =>
    rw [dictInsert]
    by_cases hk : kv.1 = k
    · rw [if_pos hk]
      simp only [List.map_cons, List.mem_cons, ← hk]
      tauto
    · rw [if_neg hk]
      simp only [List.map_cons, List.mem_cons, ih]
      tauto

theorem nodup_keys_dictInsert {β : Type} (m : List (String × β))
    (k : String) (v : β) (h : (m.map Prod.fst).Nodup) :
    ((dictInsert m k v).map Prod.fst).Nodup := by
  induction m with
  | nil => simp [dictInsert]
  | cons kv rest ih =>
    rw [List.map_cons, List.nodup_cons] at h
    rw [dictInsert]
    by_cases hk : kv.1 = k
    · rw [if_pos hk]
      rw [List.map_cons, List.nodup_cons]
      exact ⟨hk ▸ h.1, h.2⟩
    · rw [if_neg hk]
      rw [List.map_cons, List.nodup_cons]
      refine ⟨fun hc => ?_, ih h.2⟩
      rcases (mem_keys_dictInsert rest k v kv.1).mp hc with h1 | h1
      · exact hk h1
      · exact h.1 h1

theorem nodup_keys_dictBuild {β : Type} (l : List (String × β)) :
    ((dictBuild l).map Prod.fst).Nodup := by
  suffices h : ∀ acc : List (String × β), (acc.map Prod.fst).Nodup →
      ((l.foldl (fun m kv => dictInsert m kv.1 kv.2) acc).map
        Prod.fst).Nodup from h [] List.nodup_nil
  induction l with
  | nil => intro acc hacc; exact hacc
  | cons kv rest ih =>
    intro acc hacc
    rw [List.foldl_cons]
    exact ih _ (nodup_keys_dictInsert acc kv.1 kv.2 hacc)

theorem mem_dictBuild {β : Type} {l : List (String × β)} (kv : String × β)
    (h : kv ∈ dictBuild l) : kv ∈ l := by
  suffices hs : ∀ acc : List (String × β),
      kv ∈ l.foldl (fun m kv => dictInsert m kv.1 kv.2) acc →
        kv ∈ acc ∨ kv ∈ l by
    rcases hs [] h with h1 | h1
    · exact absurd h1 (List.not_mem_nil kv)
    · exact h1
  clear h
  induction l with
  | nil => intro acc hacc; exact Or.inl hacc
  | cons kv' rest ih =>
    intro acc hacc
    rw [List.foldl_cons] at hacc
    rcases ih _ hacc with h1 | h1
    · rcases mem_dictInsert kv h1 with h2 | h2
      · exact Or.inr (by rw [h2]; exact List.mem_cons_self _ _)
      · exact Or.inl h2
    · exact Or.inr (List.mem_cons_of_mem kv' h1)

theorem dictInsert_eq_append {β : Type} (m : List (String × β))
    (k : String) (v : β) (h : k ∉ m.map Prod.fst) :
    dictInsert m k v = m ++ [(k, v)] := by
  induction m with
  | nil => rfl
  | cons kv rest ih =>
    rw [List.map_cons, List.mem_cons] at h
    push_neg at h
    rw [dictInsert, if_neg (fun hc => h.1 hc.symm), List.cons_append,
      ih h.2]

theorem dictBuild_eq_self {β : Type} (l : List (String × β))
    (h : (l.map Prod.fst).Nodup) : dictBuild l = l := by
  suffices hs : ∀ acc : List (String × β),
      ((acc ++ l).map Prod.fst).Nodup →
        l.foldl (fun m kv => dictInsert m kv.1 kv.2) acc = acc ++ l by
    simpa using hs [] (by simpa using h)
  clear h
  induction l with
  | nil => intro acc hacc; simp
  | cons kv rest ih =>
    intro acc hacc
    have hk : kv.1 ∉ acc.map Prod.fst := by
      intro hc
      rw [List.map_append, List.nodup_append] at hacc
      exact hacc.2.2 hc
        (by rw [List.map_cons]; exact List.mem_cons_self _ _)
    rw [List.foldl_cons, dictInsert_eq_append acc kv.1 kv.2 hk,
      ih (acc ++ [(kv.1, kv.2)]) (by rw [List.append_assoc]; exact hacc),
      List.append_assoc]
    simp

/-! ## Equivalence of the swap loop with the spec's three-phase form -/

theorem swapBuyMoves_eq_specPureBuys (de : List SwapEntry) (n : ℕ) :
    swapBuyMoves de n = specPureBuys de n := by
  induction de generalizing n with
  | nil => rfl
  | cons d rest ih =>
    obtain ⟨sym, sh, v⟩ := d
    rw [swapBuyMoves, specPureBuys, ih]

theorem swapMatchLoop_eq_spec (ex : List SwapEntry) :
    ∀ (de : List SwapEntry) (n : ℕ),
      swapMatchLoop ex de n =
        specMatchedMoves ex de n ++
          specPureSells (ex.drop de.length) (n + min ex.length de.length) ++
          specPureBuys (de.drop ex.length) (n + ex.length) := by
  induction ex with
  | nil =>
    intro de n
    rw [swapMatchLoop, swapBuyMoves_eq_specPureBuys]
    simp [specMatchedMoves, specPureSells]
  | cons e ex' ih =>
    intro de n
    obtain ⟨esym, esh, ev⟩ := e
    cases de with
    | nil =>
      rw [swapMatchLoop, ih [] (n + 1)]
      simp only [List.drop_nil, List.length_nil, List.drop_zero,
        Nat.min_zero, Nat.add_zero, List.length_cons]
      rw [specPureSells]
      simp [specMatchedMoves, specPureBuys]
    | cons d de' =>
      obtain ⟨dsym, dsh, dv⟩ := d
      rw [swapMatchLoop, ih de' (n + 1)]
      rw [specMatchedMoves]
      have h1 : n + min (ex'.length + 1) (de'.length + 1) =
          n + 1 + min ex'.length de'.length := by omega
      have h2 : n + (ex'.length + 1) = n + 1 + ex'.length := by omega
      simp only [List.length_cons, List.drop_succ_cons, List.cons_append,
        h1, h2]

/-- Claim C4: the swap planner sorts both the excess and the deficit list
descending by their value component (stably) before matching; the emitted
plan is exactly: one move per matched head pair carrying
`min(excess_value, deficit_value)` until either sorted list is exhausted,
then the remaining excess entries as sell-only moves (`to_symbol`
absent), then the remaining deficit entries as buy-only moves
(`from_symbol` absent) — i.e. the implementation equals the
specification-side `specSwapPlan` on the sorted lists. -/
theorem swap_plan_matches_spec_greedy
    (previous_positions : List ActualPosition)
    (target_allocations : List Allocation)
    (current_prices : List (String × ℚ)) (total_capital : ℚ) :
    (sortDescBy (fun e => e.2.2)
      (excessList (buildCurrentHoldings previous_positions current_prices)
        (buildTargetHoldings target_allocations current_prices total_capital)
        current_prices)).Pairwise (fun a b => b.2.2 ≤ a.2.2) ∧
    (sortDescBy (fun e => e.2.2)
      (deficitList (buildCurrentHoldings previous_positions current_prices)
        (buildTargetHoldings target_allocations current_prices
          total_capital))).Pairwise (fun a b => b.2.2 ≤ a.2.2) ∧
    calculate_swap_moves previous_positions target_allocations
        current_prices total_capital =
      specSwapPlan
        (sortDescBy (fun e => e.2.2)
          (excessList
            (buildCurrentHoldings previous_positions current_prices)
            (buildTargetHoldings target_allocations current_prices
              total_capital) current_prices))
        (sortDescBy (fun e => e.2.2)
          (deficitList
            (buildCurrentHoldings previous_positions current_prices)
            (buildTargetHoldings target_allocations current_prices
              total_capital))) :=
  ⟨sortDescBy_pairwise _ _, sortDescBy_pairwise _ _, by
    rw [calculate_swap_moves, specSwapPlan]
    exact swapMatchLoop_eq_spec _ _ 1⟩

/-! ## Holdings-map facts needed for the cross-planner consistency law -/

theorem truncInt_nonneg (q : ℚ) (h : 0 ≤ q) : 0 ≤ truncInt q := by
  rw [truncInt, if_pos h]
  exact Int.floor_nonneg.mpr h

theorem buildCurrentHoldings_shares_nonneg
    (previous_positions : List ActualPosition)
    (current_prices : List (String × ℚ))
    (hsh : ∀ p ∈ previous_positions, 0 ≤ p.actual_shares) :
    ∀ kv ∈ buildCurrentHoldings previous_positions current_prices,
      0 ≤ kv.2.shares := by
  intro kv hkv
  have hmem := mem_dictBuild kv hkv
  rw [List.mem_map] at hmem
  obtain ⟨p, hp, hfp⟩ := hmem
  rw [← hfp]
  exact hsh p hp

theorem nodup_keys_buildTargetHoldings (target_allocations : List Allocation)
    (current_prices : List (String × ℚ)) (total_capital : ℚ) :
    ((buildTargetHoldings target_allocations current_prices
      total_capital).map Prod.fst).Nodup := by
  rw [buildTargetHoldings]
  suffices hs : ∀ (l : List Allocation) (acc : List (String × Holding)),
      (acc.map Prod.fst).Nodup →
        ((l.foldl (fun m allocation =>
          let price := dictGetD current_prices allocation.symbol 0
          if 0 < price then
            dictInsert m allocation.symbol
              ⟨truncInt (total_capital * allocation.percentage / price),
                (truncInt (total_capital * allocation.percentage / price) :
                  ℚ) * price⟩
          else m) acc).map Prod.fst).Nodup from
    hs target_allocations [] List.nodup_nil
  intro l
  induction l with
  | nil => intro acc hacc; exact hacc
  | cons a rest ih =>
    intro acc hacc
    rw [List.foldl_cons]
    by_cases hp : 0 < dictGetD current_prices a.symbol 0
    · simp only [hp, if_true]
      exact ih _ (nodup_keys_dictInsert acc a.symbol _ hacc)
    · simp only [hp, if_false]
      exact ih _ hacc

theorem buildTargetHoldings_shares_nonneg
    (target_allocations : List Allocation)
    (current_prices : List (String × ℚ)) (total_capital : ℚ)
    (hcap : 0 ≤ total_capital)
    (hpct : ∀ a ∈ target_allocations, 0 ≤ a.percentage) :
    ∀ kv ∈ buildTargetHoldings target_allocations current_prices
      total_capital, 0 ≤ kv.2.shares := by
  rw [buildTargetHoldings]
  suffices hs : ∀ (l : List Allocation), (∀ a ∈ l, 0 ≤ a.percentage) →
      ∀ acc : List (String × Holding), (∀ kv ∈ acc, 0 ≤ kv.2.shares) →
        ∀ kv ∈ l.foldl (fun m allocation =>
          let price := dictGetD current_prices allocation.symbol 0
          if 0 < price then
            dictInsert m allocation.symbol
              ⟨truncInt (total_capital * allocation.percentage / price),
                (truncInt (total_capital * allocation.percentage / price) :
                  ℚ) * price⟩
          else m) acc, 0 ≤ kv.2.shares from
    hs target_allocations hpct []
      (fun kv hc => absurd hc (List.not_mem_nil kv))
  intro l
  induction l with
  | nil => intro _ acc hacc; exact hacc
  | cons a rest ih =>
    intro hl acc hacc
    rw [List.foldl_cons]
    by_cases hp : 0 < dictGetD current_prices a.symbol 0
    · simp only [hp, if_true]
      refine ih (fun x hx => hl x (List.mem_cons_of_mem a hx)) _ ?_
      intro kv hkv
      rcases mem_dictInsert kv hkv with h1 | h1
      · rw [h1]
        refine truncInt_nonneg _ ?_
        exact div_nonneg (mul_nonneg hcap (hl a (List.mem_cons_self a rest)))
          (le_of_lt hp)
      · exact hacc kv h1
    · simp only [hp, if_false]
      exact ih (fun x hx => hl x (List.mem_cons_of_mem a hx)) _ hacc

/-! ## Per-symbol net share deltas of the two planners -/

theorem cashflowNetShares_cons (m : CashflowMove) (moves : List CashflowMove)
    (s : String) :
    cashflowNetShares (m :: moves) s =
      ((if m.symbol = s ∧ m.action = "BUY" then m.suggested_shares else 0) -
        (if m.symbol = s ∧ m.action = "SELL" then m.suggested_shares
          else 0)) + cashflowNetShares moves s := by
  rw [cashflowNetShares, cashflowNetShares, List.map_cons, List.sum_cons]

theorem cashflowNetShares_append (l₁ l₂ : List CashflowMove) (s : String) :
    cashflowNetShares (l₁ ++ l₂) s =
      cashflowNetShares l₁ s + cashflowNetShares l₂ s := by
  rw [cashflowNetShares, cashflowNetShares, cashflowNetShares,
    List.map_append, List.sum_append]

theorem cashflowSellMoves_net_notmem (current_prices : List (String × ℚ))
    (target_holdings : List (String × Holding)) (s : String) :
    ∀ (cur : List (String × Holding)) (n : ℕ), s ∉ cur.map Prod.fst →
      cashflowNetShares
        (cashflowSellMoves current_prices target_holdings cur n) s = 0 := by
  intro cur
  induction cur with
  | nil => intro n _; rfl
  | cons kv rest ih =>
    intro n hs
    obtain ⟨k, c⟩ := kv
    rw [List.map_cons, List.mem_cons] at hs
    push_neg at hs
    have hk : ¬(k = s) := fun hc => hs.1 hc.symm
    rcases hget : dictGet? target_holdings k with _ | t
    · rw [cashflowSellMoves]
      simp only [hget]
      rw [cashflowNetShares_cons]
      simp only [hk, false_and, if_false]
      rw [ih (n + 1) hs.2]
      simp
    · rw [cashflowSellMoves]
      simp only [hget]
      by_cases hlt : t.shares < c.shares
      · rw [if_pos hlt, cashflowNetShares_cons]
        simp only [hk, false_and, if_false]
        rw [ih (n + 1) hs.2]
        simp
      · rw [if_neg hlt]
        exact ih n hs.2

theorem cashflowSellMoves_net (current_prices : List (String × ℚ))
    (target_holdings : List (String × Holding)) (s : String) :
    ∀ (cur : List (String × Holding)) (n : ℕ), (cur.map Prod.fst).Nodup →
      cashflowNetShares
        (cashflowSellMoves current_prices target_holdings cur n) s =
      -(match dictGet? cur s, dictGet? target_holdings s with
        | none, _ => 0
        | some c, none => c.shares
        | some c, some t =>
          if t.shares < c.shares then c.shares - t.shares else 0) := by
  intro cur
  induction cur with
  | nil => intro n _; rfl
  | cons kv rest ih =>
    intro n hnd
    obtain ⟨k, c⟩ := kv
    rw [List.map_cons, List.nodup_cons] at hnd
    by_cases hk : k = s
    · subst hk
      rw [dictGet?_cons, if_pos rfl]
      rcases hget : dictGet? target_holdings k with _ | t
      · rw [cashflowSellMoves]
        simp only [hget]
        rw [cashflowNetShares_cons,
          cashflowSellMoves_net_notmem current_prices target_holdings k
            rest (n + 1) hnd.1]
        simp
      · rw [cashflowSellMoves]
        simp only [hget]
        by_cases hlt : t.shares < c.shares
        · rw [if_pos hlt, cashflowNetShares_cons,
            cashflowSellMoves_net_notmem current_prices target_holdings k
              rest (n + 1) hnd.1]
          simp [hlt]
        · rw [if_neg hlt,
            cashflowSellMoves_net_notmem current_prices target_holdings k
              rest n hnd.1]
          simp [hlt]
    · have hk' : ¬(k = s) := hk
      rw [dictGet?_cons, if_neg hk']
      rcases hget : dictGet? target_holdings k with _ | t
      · rw [cashflowSellMoves]
        simp only [hget]
        rw [cashflowNetShares_cons]
        simp only [hk', false_and, if_false]
        rw [ih (n + 1) hnd.2]
        simp
      · rw [cashflowSellMoves]
        simp only [hget]
        by_cases hlt : t.shares < c.shares
        · rw [if_pos hlt, cashflowNetShares_cons]
          simp only [hk', false_and, if_false]
          rw [ih (n + 1) hnd.2]
          simp
        · rw [if_neg hlt]
          exact ih n hnd.2

theorem cashflowBuyMoves_net_notmem (current_prices : List (String × ℚ))
    (current_holdings : List (String × Holding)) (s : String) :
    ∀ (tgt : List (String × Holding)) (n : ℕ), s ∉ tgt.map Prod.fst →
      cashflowNetShares
        (cashflowBuyMoves current_prices current_holdings tgt n) s = 0 := by
  intro tgt
  induction tgt with
  | nil => intro n _; rfl
  | cons kv rest ih =>
    intro n hs
    obtain ⟨k, t⟩ := kv
    rw [List.map_cons, List.mem_cons] at hs
    push_neg at hs
    have hk : ¬(k = s) := fun hc => hs.1 hc.symm
    rcases hget : dictGet? current_holdings k with _ | c
    · rw [cashflowBuyMoves]
      simp only [hget]
      rw [cashflowNetShares_cons]
      simp only [hk, false_and, if_false]
      rw [ih (n + 1) hs.2]
      simp
    · rw [cashflowBuyMoves]
      simp only [hget]
      by_cases hlt : c.shares < t.shares
      · rw [if_pos hlt, cashflowNetShares_cons]
        simp only [hk, false_and, if_false]
        rw [ih (n + 1) hs.2]
        simp
      · rw [if_neg hlt]
        exact ih n hs.2

theorem cashflowBuyMoves_net (current_prices : List (String × ℚ))
    (current_holdings : List (String × Holding)) (s : String) :
    ∀ (tgt : List (String × Holding)) (n : ℕ), (tgt.map Prod.fst).Nodup →
      cashflowNetShares
        (cashflowBuyMoves current_prices current_holdings tgt n) s =
      (match dictGet? tgt s, dictGet? current_holdings s with
        | none, _ => 0
        | some t, none => t.shares
        | some t, some c =>
          if c.shares < t.shares then t.shares - c.shares else 0) := by
  intro tgt
  induction tgt with
  | nil => intro n _; rfl
  | cons kv rest ih =>
    intro n hnd
    obtain ⟨k, t⟩ := kv
    rw [List.map_cons, List.nodup_cons] at hnd
    by_cases hk : k = s
    · subst hk
      rw [dictGet?_cons, if_pos rfl]
      rcases hget : dictGet? current_holdings k with _ | c
      · rw [cashflowBuyMoves]
        simp only [hget]
        rw [cashflowNetShares_cons,
          cashflowBuyMoves_net_notmem current_prices current_holdings k
            rest (n + 1) hnd.1]
        simp
      · rw [cashflowBuyMoves]
        simp only [hget]
        by_cases hlt : c.shares < t.shares
        · rw [if_pos hlt, cashflowNetShares_cons,
            cashflowBuyMoves_net_notmem current_prices current_holdings k
              rest (n + 1) hnd.1]
          simp [hlt]
        · rw [if_neg hlt,
            cashflowBuyMoves_net_notmem current_prices current_holdings k
              rest n hnd.1]
          simp [hlt]
    · have hk' : ¬(k = s) := hk
      rw [dictGet?_cons, if_neg hk']
      rcases hget : dictGet? current_holdings k with _ | c
      · rw [cashflowBuyMoves]
        simp only [hget]
        rw [cashflowNetShares_cons]
        simp only [hk', false_and, if_false]
        rw [ih (n + 1) hnd.2]
        simp
      · rw [cashflowBuyMoves]
        simp only [hget]
        by_cases hlt : c.shares < t.shares
        · rw [if_pos hlt, cashflowNetShares_cons]
          simp only [hk', false_and, if_false]
          rw [ih (n + 1) hnd.2]
          simp
        · rw [if_neg hlt]
          exact ih n hnd.2

/-- The net share count one symbol contributes to one side of the swap
work lists. -/
def entryShareSum (l : List SwapEntry) (s : String) : ℤ :=
  (l.map (fun e => if e.1 = s then e.2.1 else 0)).sum

theorem entryShareSum_perm {l₁ l₂ : List SwapEntry} (h : l₁.Perm l₂)
    (s : String) : entryShareSum l₁ s = entryShareSum l₂ s :=
  (h.map _).sum_eq

theorem swapNetShares_cons (m : SwapMove) (moves : List SwapMove)
    (s : String) :
    swapNetShares (m :: moves) s =
      ((if m.to_symbol = some s then m.swap_shares_to.getD 0 else 0) -
        (if m.from_symbol = some s then m.swap_shares_from.getD 0
          else 0)) + swapNetShares moves s := by
  rw [swapNetShares, swapNetShares, List.map_cons, List.sum_cons]

theorem swapBuyMoves_net (s : String) :
    ∀ (de : List SwapEntry) (n : ℕ),
      swapNetShares (swapBuyMoves de n) s = entryShareSum de s := by
  intro de
  induction de with
  | nil => intro n; rfl
  | cons d rest ih =>
    intro n
    obtain ⟨sym, sh, v⟩ := d
    rw [swapBuyMoves, swapNetShares_cons, ih (n + 1)]
    simp [entryShareSum]

theorem swapMatchLoop_net (s : String) :
    ∀ (ex de : List SwapEntry) (n : ℕ),
      swapNetShares (swapMatchLoop ex de n) s =
        entryShareSum de s - entryShareSum ex s := by
  intro ex
  induction ex with
  | nil =>
    intro de n
    rw [swapMatchLoop, swapBuyMoves_net s de n]
    simp [entryShareSum]
  | cons e ex' ih =>
    intro de n
    obtain ⟨esym, esh, ev⟩ := e
    cases de with
    | nil =>
      rw [swapMatchLoop, swapNetShares_cons, ih [] (n + 1)]
      simp only [entryShareSum, List.map_nil, List.sum_nil, List.map_cons,
        List.sum_cons]
      simp [Option.some.injEq]
      by_cases hsym : esym = s
      · simp [hsym]
        omega
      · simp [hsym]
    | cons d de' =>
      obtain ⟨dsym, dsh, dv⟩ := d
      rw [swapMatchLoop, swapNetShares_cons, ih de' (n + 1)]
      simp only [entryShareSum, List.map_cons, List.sum_cons]
      simp only [Option.some.injEq]
      by_cases hd : dsym = s <;> by_cases he : esym = s <;>
        simp [hd, he] <;> omega

theorem excessList_shareSum_notmem
    (target_holdings : List (String × Holding))
    (current_prices : List (String × ℚ)) (s : String) :
    ∀ cur : List (String × Holding), s ∉ cur.map Prod.fst →
      entryShareSum (excessList cur target_holdings current_prices) s =
        0 := by
  intro cur
  induction cur with
  | nil => intro _; rfl
  | cons kv rest ih =>
    intro hs
    obtain ⟨k, c⟩ := kv
    rw [List.map_cons, List.mem_cons] at hs
    push_neg at hs
    have hk : ¬(k = s) := fun hc => hs.1 hc.symm
    rw [excessList, List.filterMap_cons]
    by_cases hlt : (dictGetD target_holdings k ⟨0, 0⟩).shares < c.shares
    · simp only [hlt, if_true]
      rw [entryShareSum, List.map_cons, List.sum_cons, ← entryShareSum]
      rw [excessList] at ih
      rw [ih hs.2]
      simp [hk]
    · simp only [hlt, if_false]
      rw [excessList] at ih
      exact ih hs.2

theorem excessList_shareSum (target_holdings : List (String × Holding))
    (current_prices : List (String × ℚ)) (s : String) :
    ∀ cur : List (String × Holding), (cur.map Prod.fst).Nodup →
      entryShareSum (excessList cur target_holdings current_prices) s =
        (match dictGet? cur s with
          | none => 0
          | some c =>
            if (dictGetD target_holdings s ⟨0, 0⟩).shares < c.shares then
              c.shares - (dictGetD target_holdings s ⟨0, 0⟩).shares
            else 0) := by
  intro cur
  induction cur with
  | nil => intro _; rfl
  | cons kv rest ih =>
    intro hnd
    obtain ⟨k, c⟩ := kv
    rw [List.map_cons, List.nodup_cons] at hnd
    rw [excessList, List.filterMap_cons]
    by_cases hk : k = s
    · subst hk
      rw [dictGet?_cons, if_pos rfl]
      by_cases hlt : (dictGetD target_holdings k ⟨0, 0⟩).shares < c.shares
      · simp only [hlt, if_true]
        rw [entryShareSum, List.map_cons, List.sum_cons, ← entryShareSum]
        have hrest := excessList_shareSum_notmem target_holdings
          current_prices k rest hnd.1
        rw [excessList] at hrest
        rw [hrest]
        simp [hlt]
      · simp only [hlt, if_false]
        have hrest := excessList_shareSum_notmem target_holdings
          current_prices k rest hnd.1
        rw [excessList] at hrest
        rw [hrest]
    · have hk' : ¬(k = s) := hk
      rw [dictGet?_cons, if_neg hk']
      by_cases hlt : (dictGetD target_holdings k ⟨0, 0⟩).shares < c.shares
      · simp only [hlt, if_true]
        rw [entryShareSum, List.map_cons, List.sum_cons, ← entryShareSum]
        rw [excessList] at ih
        rw [ih hnd.2]
        simp [hk']
      · simp only [hlt, if_false]
        rw [excessList] at ih
        exact ih hnd.2

theorem deficitList_shareSum_notmem
    (current_holdings : List (String × Holding)) (s : String) :
    ∀ tgt : List (String × Holding), s ∉ tgt.map Prod.fst →
      entryShareSum (deficitList current_holdings tgt) s = 0 := by
  intro tgt
  induction tgt with
  | nil => intro _; rfl
  | cons kv rest ih =>
    intro hs
    obtain ⟨k, t⟩ := kv
    rw [List.map_cons, List.mem_cons] at hs
    push_neg at hs
    have hk : ¬(k = s) := fun hc => hs.1 hc.symm
    rw [deficitList, List.filterMap_cons]
    by_cases hlt : (dictGetD current_holdings k ⟨0, 0⟩).shares < t.shares
    · simp only [hlt, if_true]
      rw [entryShareSum, List.map_cons, List.sum_cons, ← entryShareSum]
      rw [deficitList] at ih
      rw [ih hs.2]
      simp [hk]
    · simp only [hlt, if_false]
      rw [deficitList] at ih
      exact ih hs.2

theorem deficitList_shareSum (current_holdings : List (String × Holding))
    (s : String) :
    ∀ tgt : List (String × Holding), (tgt.map Prod.fst).Nodup →
      entryShareSum (deficitList current_holdings tgt) s =
        (match dictGet? tgt s with
          | none => 0
          | some t =>
            if (dictGetD current_holdings s ⟨0, 0⟩).shares < t.shares then
              t.shares - (dictGetD current_holdings s ⟨0, 0⟩).shares
            else 0) := by
  intro tgt
  induction tgt with
  | nil => intro _; rfl
  | cons kv rest ih =>
    intro hnd
    obtain ⟨k, t⟩ := kv
    rw [List.map_cons, List.nodup_cons] at hnd
    rw [deficitList, List.filterMap_cons]
    by_cases hk : k = s
    · subst hk
      rw [dictGet?_cons, if_pos rfl]
      by_cases hlt : (dictGetD current_holdings k ⟨0, 0⟩).shares < t.shares
      · simp only [hlt, if_true]
        rw [entryShareSum, List.map_cons, List.sum_cons, ← entryShareSum]
        have hrest := deficitList_shareSum_notmem current_holdings k rest
          hnd.1
        rw [deficitList] at hrest
        rw [hrest]
        simp [hlt]
      · simp only [hlt, if_false]
        have hrest := deficitList_shareSum_notmem current_holdings k rest
          hnd.1
        rw [deficitList] at hrest
        rw [hrest]
    · have hk' : ¬(k = s) := hk
      rw [dictGet?_cons, if_neg hk']
      by_cases hlt : (dictGetD current_holdings k ⟨0, 0⟩).shares < t.shares
      · simp only [hlt, if_true]
        rw [entryShareSum, List.map_cons, List.sum_cons, ← entryShareSum]
        rw [deficitList] at ih
        rw [ih hnd.2]
        simp [hk']
      · simp only [hlt, if_false]
        rw [deficitList] at ih
        exact ih hnd.2

theorem calculate_swap_moves_eq (previous_positions : List ActualPosition)
    (target_allocations : List Allocation)
    (current_prices : List (String × ℚ)) (total_capital : ℚ) :
    calculate_swap_moves previous_positions target_allocations
        current_prices total_capital =
      swapMatchLoop
        (sortDescBy (fun e => e.2.2)
          (excessList
            (buildCurrentHoldings previous_positions current_prices)
            (buildTargetHoldings target_allocations current_prices
              total_capital) current_prices))
        (sortDescBy (fun e => e.2.2)
          (deficitList
            (buildCurrentHoldings previous_positions current_prices)
            (buildTargetHoldings target_allocations current_prices
              total_capital)))
        1 := rfl

theorem calculate_cashflow_moves_eq
    (previous_positions : List ActualPosition)
    (target_allocations : List Allocation)
    (current_prices : List (String × ℚ)) (total_capital : ℚ) :
    calculate_cashflow_moves previous_positions target_allocations
        current_prices total_capital =
      cashflowSellMoves current_prices
          (buildTargetHoldings target_allocations current_prices
            total_capital)
          (buildCurrentHoldings previous_positions current_prices) 1 ++
        cashflowBuyMoves current_prices
          (buildCurrentHoldings previous_positions current_prices)
          (buildTargetHoldings target_allocations current_prices
            total_capital)
          (1 + (cashflowSellMoves current_prices
            (buildTargetHoldings target_allocations current_prices
              total_capital)
            (buildCurrentHoldings previous_positions current_prices)
            1).length) := rfl

/-- Claim C2: on identical inputs satisfying the data model (non-negative
position shares, non-negative capital and target percentages), the swap
plan and the cashflow plan imply the same net share change for every
symbol: summing `shares_to - shares_from` over all swap moves mentioning
a symbol equals that symbol's BUY-minus-SELL share total in the cashflow
plan. -/
theorem swap_cashflow_net_share_consistency
    (previous_positions : List ActualPosition)
    (target_allocations : List Allocation)
    (current_prices : List (String × ℚ)) (total_capital : ℚ) (s : String)
    (hcap : 0 ≤ total_capital)
    (hpct : ∀ a ∈ target_allocations, 0 ≤ a.percentage)
    (hsh : ∀ p ∈ previous_positions, 0 ≤ p.actual_shares) :
    swapNetShares (calculate_swap_moves previous_positions
        target_allocations current_prices total_capital) s =
      cashflowNetShares (calculate_cashflow_moves previous_positions
        target_allocations current_prices total_capital) s := by
  have hndc : ((buildCurrentHoldings previous_positions
      current_prices).map Prod.fst).Nodup := by
    rw [buildCurrentHoldings]
    exact nodup_keys_dictBuild _
  have hndt := nodup_keys_buildTargetHoldings target_allocations
    current_prices total_capital
  have hcnn := buildCurrentHoldings_shares_nonneg previous_positions
    current_prices hsh
  have htnn := buildTargetHoldings_shares_nonneg target_allocations
    current_prices total_capital hcap hpct
  rw [calculate_swap_moves_eq, calculate_cashflow_moves_eq,
    cashflowNetShares_append, swapMatchLoop_net,
    entryShareSum_perm (sortDescBy_perm _ _) s,
    entryShareSum_perm (sortDescBy_perm _ _) s,
    excessList_shareSum _ _ s _ hndc, deficitList_shareSum _ s _ hndt,
    cashflowSellMoves_net _ _ s _ 1 hndc,
    cashflowBuyMoves_net _ _ s _ _ hndt]
  rcases hc : dictGet? (buildCurrentHoldings previous_positions
      current_prices) s with _ | c <;>
    rcases ht : dictGet? (buildTargetHoldings target_allocations
      current_prices total_capital) s with _ | t
  · simp [dictGetD, hc, ht]
  · have ht0 : 0 ≤ t.shares := htnn (s, t) (dictGet?_mem ht)
    simp only [dictGetD, hc, ht, Option.getD_some, Option.getD_none]
    by_cases h0 : (0 : ℤ) < t.shares
    · simp only [Holding.shares] at h0 ⊢
      simp [h0]
    · have : t.shares = 0 := le_antisymm (not_lt.mp h0) ht0
      simp [this]
  · have hc0 : 0 ≤ c.shares := hcnn (s, c) (dictGet?_mem hc)
    simp only [dictGetD, hc, ht, Option.getD_some, Option.getD_none]
    by_cases h0 : (0 : ℤ) < c.shares
    · simp [h0]
    · have : c.shares = 0 := le_antisymm (not_lt.mp h0) hc0
      simp [this]
  · simp only [dictGetD, hc, ht, Option.getD_some]
    by_cases h1 : t.shares < c.shares <;> by_cases h2 : c.shares < t.shares
    · omega
    · simp [h1, h2]
    · simp [h1, h2]
    · simp [h1, h2]

/-- Witness for C2: a previous holding of 5 AAA at price 10 with a target
of 50% BBB at price 5 on capital 100 (all hypotheses concretely
satisfied). -/
theorem swap_cashflow_net_share_consistency_witness :
    swapNetShares (calculate_swap_moves [⟨"AAA", 5, 10⟩] [⟨"BBB", 1/2⟩]
        [("AAA", 10), ("BBB", 5)] 100) "BBB" =
      cashflowNetShares (calculate_cashflow_moves [⟨"AAA", 5, 10⟩]
        [⟨"BBB", 1/2⟩] [("AAA", 10), ("BBB", 5)] 100) "BBB" :=
  swap_cashflow_net_share_consistency [⟨"AAA", 5, 10⟩] [⟨"BBB", 1/2⟩]
    [("AAA", 10), ("BBB", 5)] 100 "BBB" (by norm_num)
    (by intro a ha; simp at ha; rw [ha]; norm_num)
    (by intro p hp; simp at hp; rw [hp]; decide)

/-! ## Order-index structure of the cashflow plan -/

theorem cashflowSellMoves_order (current_prices : List (String × ℚ))
    (target_holdings : List (String × Holding)) :
    ∀ (cur : List (String × Holding)) (n : ℕ),
      (cashflowSellMoves current_prices target_holdings cur n).map
          (fun m => m.order_index) =
        List.range' n
          (cashflowSellMoves current_prices target_holdings cur
            n).length := by
  intro cur
  induction cur with
  | nil => intro n; rfl
  | cons kv rest ih =>
    intro n
    obtain ⟨k, c⟩ := kv
    rcases hget : dictGet? target_holdings k with _ | t
    · rw [cashflowSellMoves]
      simp only [hget]
      rw [List.map_cons, ih (n + 1), List.length_cons]
      simp [List.range']
    · rw [cashflowSellMoves]
      simp only [hget]
      by_cases hlt : t.shares < c.shares
      · rw [if_pos hlt, List.map_cons, ih (n + 1), List.length_cons]
        simp [List.range']
      · rw [if_neg hlt]
        exact ih n

theorem cashflowBuyMoves_order (current_prices : List (String × ℚ))
    (current_holdings : List (String × Holding)) :
    ∀ (tgt : List (String × Holding)) (n : ℕ),
      (cashflowBuyMoves current_prices current_holdings tgt n).map
          (fun m => m.order_index) =
        List.range' n
          (cashflowBuyMoves current_prices current_holdings tgt
            n).length := by
  intro tgt
  induction tgt with
  | nil => intro n; rfl
  | cons kv rest ih =>
    intro n
    obtain ⟨k, t⟩ := kv
    rcases hget : dictGet? current_holdings k with _ | c
    · rw [cashflowBuyMoves]
      simp only [hget]
      rw [List.map_cons, ih (n + 1), List.length_cons]
      simp [List.range']
    · rw [cashflowBuyMoves]
      simp only [hget]
      by_cases hlt : c.shares < t.shares
      · rw [if_pos hlt, List.map_cons, ih (n + 1), List.length_cons]
        simp [List.range']
      · rw [if_neg hlt]
        exact ih n

theorem cashflowSellMoves_action (current_prices : List (String × ℚ))
    (target_holdings : List (String × Holding)) :
    ∀ (cur : List (String × Holding)) (n : ℕ)
      (m : CashflowMove),
      m ∈ cashflowSellMoves current_prices target_holdings cur n →
        m.action = "SELL" := by
  intro cur
  induction cur with
  | nil => intro n m hm; exact absurd hm (List.not_mem_nil m)
  | cons kv rest ih =>
    intro n m hm
    obtain ⟨k, c⟩ := kv
    rcases hget : dictGet? target_holdings k with _ | t
    · rw [cashflowSellMoves] at hm
      simp only [hget] at hm
      rcases List.mem_cons.mp hm with h1 | h1
      · rw [h1]
      · exact ih (n + 1) m h1
    · rw [cashflowSellMoves] at hm
      simp only [hget] at hm
      by_cases hlt : t.shares < c.shares
      · rw [if_pos hlt] at hm
        rcases List.mem_cons.mp hm with h1 | h1
        · rw [h1]
        · exact ih (n + 1) m h1
      · rw [if_neg hlt] at hm
        exact ih n m hm

theorem cashflowBuyMoves_action (current_prices : List (String × ℚ))
    (current_holdings : List (String × Holding)) :
    ∀ (tgt : List (String × Holding)) (n : ℕ)
      (m : CashflowMove),
      m ∈ cashflowBuyMoves current_prices current_holdings tgt n →
        m.action = "BUY" := by
  intro tgt
  induction tgt with
  | nil => intro n m hm; exact absurd hm (List.not_mem_nil m)
  | cons kv rest ih =>
    intro n m hm
    obtain ⟨k, t⟩ := kv
    rcases hget : dictGet? current_holdings k with _ | c
    · rw [cashflowBuyMoves] at hm
      simp only [hget] at hm
      rcases List.mem_cons.mp hm with h1 | h1
      · rw [h1]
      · exact ih (n + 1) m h1
    · rw [cashflowBuyMoves] at hm
      simp only [hget] at hm
      by_cases hlt : c.shares < t.shares
      · rw [if_pos hlt] at hm
        rcases List.mem_cons.mp hm with h1 | h1
        · rw [h1]
        · exact ih (n + 1) m h1
      · rw [if_neg hlt] at hm
        exact ih n m hm

/-- Claim C3: in every cashflow plan the `order_index` values form the
contiguous sequence `1..N` with no gaps (`N` = number of moves), and
every SELL move carries a strictly smaller `order_index` than every BUY
move. -/
theorem cashflow_order_dense_sells_before_buys
    (previous_positions : List ActualPosition)
    (target_allocations : List Allocation)
    (current_prices : List (String × ℚ)) (total_capital : ℚ) :
    ((calculate_cashflow_moves previous_positions target_allocations
        current_prices total_capital).map (fun m => m.order_index) =
      List.range' 1 (calculate_cashflow_moves previous_positions
        target_allocations current_prices total_capital).length) ∧
    (∀ m₁ ∈ calculate_cashflow_moves previous_positions
        target_allocations current_prices total_capital,
      ∀ m₂ ∈ calculate_cashflow_moves previous_positions
        target_allocations current_prices total_capital,
        m₁.action = "SELL" → m₂.action = "BUY" →
          m₁.order_index < m₂.order_index) := by
  rw [calculate_cashflow_moves_eq]
  set T := buildTargetHoldings target_allocations current_prices
    total_capital with hT
  set C := buildCurrentHoldings previous_positions current_prices with hC
  set sells := cashflowSellMoves current_prices T C 1 with hsells
  set buys := cashflowBuyMoves current_prices C T (1 + sells.length)
    with hbuys
  have hso : sells.map (fun m => m.order_index) =
      List.range' 1 sells.length := cashflowSellMoves_order _ _ C 1
  have hbo : buys.map (fun m => m.order_index) =
      List.range' (1 + sells.length) buys.length :=
    cashflowBuyMoves_order _ _ T (1 + sells.length)
  constructor
  · rw [List.map_append, hso, hbo, List.length_append]
    have h := List.range'_append 1 sells.length buys.length 1
    simp only [Nat.one_mul] at h
    rw [Nat.add_comm buys.length sells.length] at h
    exact h
  · intro m₁ hm₁ m₂ hm₂ hact₁ hact₂
    have hm₁s : m₁ ∈ sells := by
      rcases List.mem_append.mp hm₁ with h | h
      · exact h
      · have := cashflowBuyMoves_action current_prices C T
          (1 + sells.length) m₁ h
        rw [hact₁] at this
        exact absurd this (by decide)
    have hm₂b : m₂ ∈ buys := by
      rcases List.mem_append.mp hm₂ with h | h
      · have := cashflowSellMoves_action current_prices T C 1 m₂ h
        rw [hact₂] at this
        exact absurd this (by decide)
      · exact h
    have h₁ : m₁.order_index ∈ List.range' 1 sells.length := by
      rw [← hso]
      exact List.mem_map_of_mem (fun m => m.order_index) hm₁s
    have h₂ : m₂.order_index ∈ List.range' (1 + sells.length)
        buys.length := by
      rw [← hbo]
      exact List.mem_map_of_mem (fun m => m.order_index) hm₂b
    rw [List.mem_range'_1] at h₁ h₂
    omega

/-! ## Total price-fetch failure turns the cashflow plan into a full
liquidation -/

theorem buildTargetHoldings_empty_prices (target_allocations : List Allocation)
    (total_capital : ℚ) :
    buildTargetHoldings target_allocations [] total_capital = [] := by
  rw [buildTargetHoldings]
  induction target_allocations with
  | nil => rfl
  | cons a rest ih =>
    rw [List.foldl_cons]
    simpa using ih

theorem buildCurrentHoldings_empty_prices
    (previous_positions : List ActualPosition)
    (hnd : (previous_positions.map (fun p => p.symbol)).Nodup) :
    buildCurrentHoldings previous_positions [] =
      previous_positions.map (fun p =>
        (p.symbol, ⟨p.actual_shares,
          (p.actual_shares : ℚ) * p.actual_avg_price_usd⟩)) := by
  rw [buildCurrentHoldings]
  exact dictBuild_eq_self _ (by rw [List.map_map]; exact hnd)

theorem cashflowSellMoves_full_liquidation
    (previous_positions : List ActualPosition) :
    ∀ n : ℕ,
      cashflowSellMoves [] [] (previous_positions.map (fun p =>
          (p.symbol, ⟨p.actual_shares,
            (p.actual_shares : ℚ) * p.actual_avg_price_usd⟩))) n =
        ((List.range' n previous_positions.length).zip
          previous_positions).map (fun x =>
            ⟨x.2.symbol, "SELL", x.2.actual_shares,
              (x.2.actual_shares : ℚ) * x.2.actual_avg_price_usd,
              x.1⟩) := by
  induction previous_positions with
  | nil => intro n; rfl
  | cons p rest ih =>
    intro n
    rw [List.map_cons, cashflowSellMoves]
    simp only [dictGet?_nil]
    rw [ih (n + 1), List.length_cons]
    simp [List.range']

/-- Claim C10: calling `calculate_cashflow_moves` with an empty
current-prices map (the orchestrator's fallback when the quote fetch
fails) and previous positions produces no target entry for any
allocation — the `price > 0` guard excludes every symbol — so the plan is
exactly one full-position SELL per previous position, valued at the
position's share count times its stored average price, with no BUY move:
a total price-fetch failure silently becomes a full liquidation. -/
theorem empty_price_map_full_liquidation
    (previous_positions : List ActualPosition)
    (target_allocations : List Allocation) (total_capital : ℚ)
    (_hne : previous_positions ≠ [])
    (hnd : (previous_positions.map (fun p => p.symbol)).Nodup) :
    calculate_cashflow_moves previous_positions target_allocations []
        total_capital =
      ((List.range' 1 previous_positions.length).zip
        previous_positions).map (fun x =>
          ⟨x.2.symbol, "SELL", x.2.actual_shares,
            (x.2.actual_shares : ℚ) * x.2.actual_avg_price_usd, x.1⟩) ∧
    ∀ m ∈ calculate_cashflow_moves previous_positions target_allocations
        [] total_capital, m.action = "SELL" := by
  have heq : calculate_cashflow_moves previous_positions
      target_allocations [] total_capital =
      ((List.range' 1 previous_positions.length).zip
        previous_positions).map (fun x =>
          ⟨x.2.symbol, "SELL", x.2.actual_shares,
            (x.2.actual_shares : ℚ) * x.2.actual_avg_price_usd,
            x.1⟩) := by
    rw [calculate_cashflow_moves_eq, buildTargetHoldings_empty_prices,
      buildCurrentHoldings_empty_prices previous_positions hnd,
      cashflowSellMoves_full_liquidation previous_positions 1]
    simp [cashflowBuyMoves]
  refine ⟨heq, fun m hm => ?_⟩
  rw [heq] at hm
  obtain ⟨x, _, hx⟩ := List.mem_map.mp hm
  rw [← hx]

/-- Witness for C10: two priced-out positions (3 AAA at stored average 7,
2 BBB at stored average 5) with a non-empty target list become exactly
two full SELLs valued 21 and 10, in position order, with no BUY. -/
theorem empty_price_map_full_liquidation_witness :
    calculate_cashflow_moves [⟨"AAA", 3, 7⟩, ⟨"BBB", 2, 5⟩]
        [⟨"CCC", 1/2⟩] [] 100 =
      [⟨"AAA", "SELL", 3, 21, 1⟩, ⟨"BBB", "SELL", 2, 10, 2⟩] ∧
    ∀ m ∈ calculate_cashflow_moves [⟨"AAA", 3, 7⟩, ⟨"BBB", 2, 5⟩]
        [⟨"CCC", 1/2⟩] [] 100, m.action = "SELL" := by
  have h := empty_price_map_full_liquidation
    [⟨"AAA", 3, 7⟩, ⟨"BBB", 2, 5⟩] [⟨"CCC", 1/2⟩] 100
    (by decide) (by decide)
  refine ⟨?_, h.2⟩
  rw [h.1]
  norm_num [List.range', List.zip, List.zipWith]

end MoMentor
